import Mathlib

/-!
# Verification of the CPU multinomial sampling kernel

Shallow embedding of `tensorflow/core/kernels/multinomial_op.cc` (CPU path):

* the per-row CDF construction and `std::upper_bound` inverse-CDF search of
  `MultinomialFunctor<CPUDevice>::operator()` (`DoWork`);
* the per-shard RNG skip arithmetic `gen_copy.Skip(start_row * (num_samples + 3) / 4)`
  and the sequential word consumption of `SimplePhilox::RandDouble` (two 32-bit
  words per double, four words per 128-bit Philox block);
* the validation / allocation / reservation sequence of `MultinomialOp::DoCompute`
  and `StatelessMultinomialOp::Compute`.

Modelling conventions:

* Logit values of element type `T` are modelled by `FpVal`: a finite rational,
  `+inf`, `-inf`, or `nan`.  The double arithmetic of the kernel is modelled by
  exact rational arithmetic; the math-library exponential (external to the
  sources) is a parameter `e : Rat -> Rat`, constrained only by positivity where
  a claim needs it.  `std::numeric_limits<T>::lowest()` is the parameter `lowest`.
* The counter-based RNG (`PhiloxRandom`, `SimplePhilox`, files not among the
  given sources) is modelled from the spec as an abstract stream of 32-bit
  words `stream : Nat -> Nat`; `Skip n` positions the stream at word `4 * n`
  (128-bit blocks of four words), and a uniform double consumes the next two
  words, as documented by the kernel comment "CPU generates doubles = 2 samples
  per number".
-/

namespace MultinomialOp

/-- A floating-point value of the logits element type: finite (with its exact
real value as a rational), positive infinity, negative infinity, or NaN. -/
inductive FpVal where
  | fin (q : ℚ)
  | pinf
  | ninf
  | nan
deriving DecidableEq, Repr

/-- `Eigen::numext::isfinite` on a logit value. -/
def FpVal.isFinite : FpVal → Bool
  | .fin _ => true
  | _ => false

/-- Whether a row has at least one finite logit (decidable form). -/
def hasFinite (row : List FpVal) : Bool := row.any FpVal.isFinite

/-- Whether every finite logit of the row is at least `lowest`
(always true for genuine values of the element type, whose `lowest()` is the
least finite value). -/
def allFiniteGe (lowest : ℚ) (row : List FpVal) : Bool :=
  row.all fun v => match v with
    | .fin q => decide (lowest ≤ q)
    | _ => true

/-- One step of the along-class maximum loop:
`if (isfinite(logits_row[j])) max = std::max(max, logits_row[j]);`. -/
def stepMax (m : ℚ) (v : FpVal) : ℚ :=
  match v with
  | .fin q => max m q
  | _ => m

/-- The along-class maximum: `max` starts at `std::numeric_limits<T>::lowest()`
and is folded over the finite entries of the row. -/
def maxFinite (lowest : ℚ) (row : List FpVal) : ℚ := row.foldl stepMax lowest

/-- The contribution of one logit to the running total:
`exp(logit - max)` if the logit is finite, `0` otherwise (non-finite entries
are skipped by the `isfinite` test in the accumulation loop). -/
def contrib (e : ℚ → ℚ) (m : ℚ) (v : FpVal) : ℚ :=
  match v with
  | .fin q => e (q - m)
  | _ => 0

/-- Sum of the contributions of a row segment. -/
def finSum (e : ℚ → ℚ) (m : ℚ) : List FpVal → ℚ
  | [] => 0
  | v :: t => contrib e m v + finSum e m t

/-- The CDF accumulation loop: starting from running total `acc`, for each
entry add its contribution to the running total and store the running total. -/
def cdfAux (e : ℚ → ℚ) (m : ℚ) (acc : ℚ) : List FpVal → List ℚ
  | [] => []
  | v :: t => (acc + contrib e m v) :: cdfAux e m (acc + contrib e m v) t

/-- The per-row unnormalized CDF, as built by `DoWork`. -/
def cdfList (e : ℚ → ℚ) (lowest : ℚ) (row : List FpVal) : List ℚ :=
  cdfAux e (maxFinite lowest row) 0 row

/-- The final value of the `running_total` variable (the loop in `DoWork`
written as a fold, exactly as in the code). -/
def runningTotal (e : ℚ → ℚ) (m : ℚ) (row : List FpVal) : ℚ :=
  row.foldl (fun acc v => acc + contrib e m v) 0

/-- `SimplePhilox::RandDouble` at word position `p` of the stream:
`Uint64ToDouble(x0, x1)` builds the 52-bit mantissa from the low 20 bits of
the first word and all 32 bits of the second, yielding `man / 2^52` exactly.
Modelled from the spec for `random_distributions.h` /`simple_philox.h`
(not among the given sources): a uniform draw in `[0,1)` built from the next
two 32-bit words of the stream. -/
def randDouble (stream : ℕ → ℕ) (p : ℕ) : ℚ :=
  (((stream p % 2 ^ 32 % 2 ^ 20) * 2 ^ 32 + stream (p + 1) % 2 ^ 32 : ℕ) : ℚ) / 2 ^ 52

/-- `std::upper_bound` on the index range `[first, first + len)`, written with
explicit fuel so that it is structurally recursive (the fuel is an upper bound
on `len`, which strictly decreases at every step).  This is the classic
binary search of the C++ standard library: keep the left half when
`value < *middle`, otherwise drop the middle and the left half. -/
def ubAux (l : List ℚ) (v : ℚ) : ℕ → ℕ → ℕ → ℕ
  | 0, first, _ => first
  | fuel + 1, first, len =>
    if len = 0 then first
    else
      let half := len / 2
      if v < l.getD (first + half) 0 then ubAux l v fuel first half
      else ubAux l v fuel (first + half + 1) (len - half - 1)

/-- `std::upper_bound(cdf_begin, cdf_end, v) - cdf_begin`. -/
def upperBound (l : List ℚ) (v : ℚ) : ℕ := ubAux l v l.length 0 l.length

/-- One row of `DoWork`, starting with the RNG stream at word position `p`:
build the CDF once, then for each of the `K` samples draw
`to_find = RandDouble() * running_total` (sample `j` consumes words
`p + 2*j` and `p + 2*j + 1`) and return `upper_bound(cdf, to_find)`. -/
def sampleRow (e : ℚ → ℚ) (lowest : ℚ) (stream : ℕ → ℕ) (p : ℕ)
    (row : List FpVal) (K : ℕ) : List ℕ :=
  let m := maxFinite lowest row
  let cdf := cdfList e lowest row
  let total := runningTotal e m row
  (List.range K).map fun j => upperBound cdf (randDouble stream (p + 2 * j) * total)

/-- The shard skip amount `start_row * (num_samples + 3) / 4`, in 128-bit
blocks (C++ integer arithmetic: the multiplication happens first, then the
truncating division). -/
def shardSkipBlocks (startRow K : ℕ) : ℕ := startRow * (K + 3) / 4

/-- The stream word position at which row `b` of the shard starting at row `s`
is processed: the shard skips `shardSkipBlocks s K` blocks of 4 words, and
each earlier row of the shard consumed `2 * K` words (two words per
`RandDouble`). -/
def rowStartWord (s b K : ℕ) : ℕ := 4 * shardSkipBlocks s K + 2 * K * (b - s)

/-- Number of 32-bit words consumed by a shard of `rows` rows at `K` samples
per row. -/
def shardWordsUsed (K rows : ℕ) : ℕ := 2 * K * rows

/-- Number of 128-bit blocks actually consumed by a shard of `rows` rows:
the ceiling of `shardWordsUsed / 4`, since the single-sample adapter fetches
whole blocks. -/
def shardBlocksUsed (K rows : ℕ) : ℕ := (shardWordsUsed K rows + 3) / 4

/-- The empty output: no row written yet. -/
def emptyOut : ℕ → Option (List ℕ) := fun _ => none

/-- Processing one shard `(s, l)`: every row `b` with `s ≤ b < l` is written
with its `K` samples, drawn from the shard's private stream copy positioned by
the skip formula; other rows are left untouched. -/
def writeShard (e : ℚ → ℚ) (lowest : ℚ) (stream : ℕ → ℕ)
    (logits : List (List FpVal)) (K : ℕ)
    (out : ℕ → Option (List ℕ)) (sl : ℕ × ℕ) : ℕ → Option (List ℕ) :=
  fun b =>
    if sl.1 ≤ b ∧ b < sl.2 then
      some (sampleRow e lowest stream (rowStartWord sl.1 b K) (logits.getD b []) K)
    else out b

/-- Running the batch under a given list of shards (the contiguous row ranges
the work sharder chose), processing the shards in list order. -/
def runPartition (e : ℚ → ℚ) (lowest : ℚ) (stream : ℕ → ℕ)
    (logits : List (List FpVal)) (K : ℕ) (P : List (ℕ × ℕ)) :
    ℕ → Option (List ℕ) :=
  P.foldl (writeShard e lowest stream logits K) emptyOut

/-- Two row ranges `[a.1, a.2)` and `[b.1, b.2)` are disjoint. -/
def disjointShards (a b : ℕ × ℕ) : Prop := min a.2 b.2 ≤ max a.1 b.1

instance : DecidableRel disjointShards := fun a b => by
  unfold disjointShards; infer_instance

/-- The kind of `InvalidArgument` error raised by the validation checks of
`MultinomialOp::DoCompute` and `StatelessMultinomialOp::Compute`. -/
inductive ErrKind where
  | notMatrix
  | notScalar
  | negSamples
  | tooLarge
  | zeroClasses
  | badSeedShape
deriving DecidableEq, Repr

/-- What a successful `DoCompute` did: the shape of the allocated output, how
many random samples were reserved from the guarded generator (`none` when
`ReserveRandomOutputs` was never called), and how many rows the CPU functor
was asked to process (`0` when the functor was not invoked). -/
structure OpResult where
  outputShape : List ℕ
  reserved : Option ℕ
  rowsProcessed : ℕ
deriving DecidableEq, Repr

/-- `static_cast<int>(dim) == dim` for a non-negative `int64` dimension:
the dimension fits in a 32-bit signed int. -/
def intMax : ℕ := 2 ^ 31 - 1

/-- `MultinomialOp::DoCompute` on the CPU device, as a function of the logits
shape, the shape of the `num_samples` input, the (int32) value of
`num_samples`, and the position `g` of the process-owned guarded generator.
Returns the op outcome and the new generator position.  The checks appear in
source order: `IsMatrix`, `IsScalar`, `num_samples >= 0`, both logits
dimensions fit in `int`, `num_classes > 0`; then the `[batch, num_samples]`
output is allocated, and only when it has a positive number of elements are
`batch_size * ((num_samples + 3) / 4 * 4 * 2)` random samples reserved
(CPU generates doubles, two singles per sample) and the functor invoked.
`ReserveRandomOutputs` (not among the given sources) is modelled from the
spec: the stateful generator is advanced by the reserved amount, so that
successive calls use non-overlapping ranges.

`doComputeOk` is the part of `DoCompute` after all validation checks have
passed: allocate the `[batch, num_samples]` output, and only when it is
nonempty reserve random samples and invoke the functor. -/
def doComputeOk (B K g : ℕ) : Except ErrKind OpResult × ℕ :=
  if 0 < B * K then
    let amount := B * ((K + 3) / 4 * 4 * 2)
    (.ok ⟨[B, K], some amount, B⟩, g + amount)
  else (.ok ⟨[B, K], none, 0⟩, g)

/-- `MultinomialOp::DoCompute` proper: the five validation checks in source
order (`IsMatrix`, `IsScalar`, `num_samples >= 0`, both logits dimensions fit
in `int`, `num_classes > 0`), then the post-validation tail `doComputeOk`. -/
def doCompute (logitsShape numSamplesShape : List ℕ) (numSamples : ℤ) (g : ℕ) :
    Except ErrKind OpResult × ℕ :=
  if logitsShape.length ≠ 2 then (.error .notMatrix, g)
  else if numSamplesShape.length ≠ 0 then (.error .notScalar, g)
  else if numSamples < 0 then (.error .negSamples, g)
  else if ¬ logitsShape.all (· ≤ intMax) then (.error .tooLarge, g)
  else if logitsShape.getD 1 0 = 0 then (.error .zeroClasses, g)
  else doComputeOk (logitsShape.getD 0 0) numSamples.toNat g

/-- `StatelessMultinomialOp::Compute` at the shape level: first the seed input
must have shape `[2]`, then a generator local to the call is initialized from
the key derived from the seed (`GenerateKey`, not among the given sources, is
modelled from the spec as an arbitrary pure function `gk` of the seed) and
`DoCompute` runs against that local generator; the ambient process state `g`
is never touched. -/
def statelessCompute (gk : ℤ × ℤ → ℕ) (logitsShape numSamplesShape : List ℕ)
    (numSamples : ℤ) (seedShape : List ℕ) (seed : ℤ × ℤ) (g : ℕ) :
    Except ErrKind OpResult × ℕ :=
  if ¬ (seedShape.length = 1 ∧ seedShape.getD 0 0 = 2) then (.error .badSeedShape, g)
  else ((doCompute logitsShape numSamplesShape numSamples (gk seed)).1, g)

/-- The stateless op end to end, producing the output rows: validation as in
`statelessCompute`, and on success the CPU functor fills the output under the
shard list `P` chosen by the work sharder, reading the RNG stream derived from
the seed (`gks` maps the seed to the keyed stream; modelled from the spec,
which derives the key/counter purely from the seed).  The ambient process
state `g` is returned untouched. -/
def statelessFull (gks : ℤ × ℤ → ℕ → ℕ) (e : ℚ → ℚ) (lowest : ℚ)
    (logits : List (List FpVal)) (numSamplesShape seedShape : List ℕ)
    (numSamples : ℤ) (seed : ℤ × ℤ) (P : List (ℕ × ℕ)) (g : ℕ) :
    Except ErrKind (ℕ → Option (List ℕ)) × ℕ :=
  if ¬ (seedShape.length = 1 ∧ seedShape.getD 0 0 = 2) then (.error .badSeedShape, g)
  else
    let shape := [logits.length, (logits.getD 0 []).length]
    match (doCompute shape numSamplesShape numSamples 0).1 with
    | .error k => (.error k, g)
    | .ok r =>
      if r.rowsProcessed = 0 then (.ok emptyOut, g)
      else (.ok (runPartition e lowest (gks seed) logits numSamples.toNat P), g)

/-- Whether an op outcome is an error. -/
def isErr {α : Type} (r : Except ErrKind α) : Bool :=
  match r with
  | .error _ => true
  | .ok _ => false

/-- The output row `b` of a full run, `none` on error. -/
def outAt (r : Except ErrKind (ℕ → Option (List ℕ))) (b : ℕ) : Option (List ℕ) :=
  match r with
  | .ok f => f b
  | .error _ => none

/-! ## Lemmas about the along-class maximum -/

theorem foldl_stepMax_init_le (l : List FpVal) :
    ∀ a : ℚ, a ≤ l.foldl stepMax a := by
  induction l with
  | nil => intro a; simp
  | cons v t ih =>
    intro a
    refine le_trans ?_ (ih (stepMax a v))
    cases v <;> simp [stepMax]

theorem le_foldl_stepMax (l : List FpVal) :
    ∀ (a q : ℚ), FpVal.fin q ∈ l → q ≤ l.foldl stepMax a := by
  induction l with
  | nil => intro a q h; simp at h
  | cons v t ih =>
    intro a q h
    rcases List.mem_cons.mp h with h | h
    · subst h
      refine le_trans ?_ (foldl_stepMax_init_le t (stepMax a (FpVal.fin q)))
      simp [stepMax]
    · exact ih _ q h

theorem foldl_stepMax_cases (l : List FpVal) :
    ∀ a : ℚ, l.foldl stepMax a = a ∨ ∃ q, FpVal.fin q ∈ l ∧ l.foldl stepMax a = q := by
  induction l with
  | nil => intro a; left; rfl
  | cons v t ih =>
    intro a
    rcases ih (stepMax a v) with h | ⟨q, hq, hfold⟩
    · rw [List.foldl_cons, h]
      cases v with
      | fin q =>
        rcases max_choice a q with hm | hm
        · left; simpa [stepMax] using hm
        · right; exact ⟨q, List.mem_cons_self _ _, by simpa [stepMax] using hm⟩
      | pinf => left; rfl
      | ninf => left; rfl
      | nan => left; rfl
    · right
      exact ⟨q, List.mem_cons_of_mem _ hq, by simpa using hfold⟩

theorem hasFinite_exists {l : List FpVal} (h : hasFinite l = true) :
    ∃ q, FpVal.fin q ∈ l := by
  rcases List.any_eq_true.mp h with ⟨v, hv, hfin⟩
  cases v with
  | fin q => exact ⟨q, hv⟩
  | pinf => simp [FpVal.isFinite] at hfin
  | ninf => simp [FpVal.isFinite] at hfin
  | nan => simp [FpVal.isFinite] at hfin

theorem allFiniteGe_spec {low : ℚ} {l : List FpVal} (h : allFiniteGe low l = true) :
    ∀ q, FpVal.fin q ∈ l → low ≤ q := by
  intro q hq
  have := List.all_eq_true.mp h _ hq
  exact of_decide_eq_true this

/-- When the row has a finite entry and all its finite entries are at least
`lowest`, the along-class maximum is attained at a finite entry and bounds
every finite entry: it is the maximum over the row's finite logits. -/
theorem maxFinite_is_max {low : ℚ} {l : List FpVal}
    (hfin : hasFinite l = true) (hge : allFiniteGe low l = true) :
    FpVal.fin (maxFinite low l) ∈ l ∧ ∀ q, FpVal.fin q ∈ l → q ≤ maxFinite low l := by
  refine ⟨?_, fun q hq => le_foldl_stepMax l low q hq⟩
  rcases foldl_stepMax_cases l low with h | ⟨q, hq, hfold⟩
  · rcases hasFinite_exists hfin with ⟨q, hq⟩
    have h1 : q ≤ maxFinite low l := le_foldl_stepMax l low q hq
    have h2 : low ≤ q := allFiniteGe_spec hge q hq
    have : maxFinite low l = q := le_antisymm (by rw [maxFinite, h]; exact h2) h1
    rw [this]; exact hq
  · rw [maxFinite, hfold]; exact hq

/-! ## Lemmas about the running-total sums -/

theorem finSum_append (e : ℚ → ℚ) (m : ℚ) (l₁ l₂ : List FpVal) :
    finSum e m (l₁ ++ l₂) = finSum e m l₁ + finSum e m l₂ := by
  induction l₁ with
  | nil => simp [finSum]
  | cons v t ih => simp [finSum, ih]; ring

theorem finSum_nonneg {e : ℚ → ℚ} (he : ∀ x, 0 ≤ e x) (m : ℚ) (l : List FpVal) :
    0 ≤ finSum e m l := by
  induction l with
  | nil => simp [finSum]
  | cons v t ih =>
    have hc : 0 ≤ contrib e m v := by cases v <;> simp [contrib, he]
    simpa [finSum] using add_nonneg hc ih

theorem finSum_pos {e : ℚ → ℚ} (he : ∀ x, 0 < e x) (m : ℚ) {l : List FpVal}
    (hfin : hasFinite l = true) : 0 < finSum e m l := by
  induction l with
  | nil => simp [hasFinite] at hfin
  | cons v t ih =>
    have hnn : 0 ≤ finSum e m t :=
      finSum_nonneg (fun x => le_of_lt (he x)) m t
    cases v with
    | fin q =>
      have : 0 < contrib e m (FpVal.fin q) := by simpa [contrib] using he (q - m)
      simpa [finSum] using add_pos_of_pos_of_nonneg this hnn
    | pinf =>
      have : hasFinite t = true := by simpa [hasFinite, FpVal.isFinite] using hfin
      simpa [finSum, contrib] using ih this
    | ninf =>
      have : hasFinite t = true := by simpa [hasFinite, FpVal.isFinite] using hfin
      simpa [finSum, contrib] using ih this
    | nan =>
      have : hasFinite t = true := by simpa [hasFinite, FpVal.isFinite] using hfin
      simpa [finSum, contrib] using ih this

theorem finSum_take_mono {e : ℚ → ℚ} (he : ∀ x, 0 ≤ e x) (m : ℚ) (l : List FpVal)
    {i j : ℕ} (hij : i ≤ j) :
    finSum e m (l.take i) ≤ finSum e m (l.take j) := by
  have hj : j = i + (j - i) := by omega
  rw [hj, List.take_add, finSum_append]
  exact le_add_of_nonneg_right (finSum_nonneg he m _)

theorem finSum_all_nonfinite {e : ℚ → ℚ} (m : ℚ) {l : List FpVal}
    (h : ∀ v ∈ l, v.isFinite = false) : finSum e m l = 0 := by
  induction l with
  | nil => rfl
  | cons v t ih =>
    have hv := h v (List.mem_cons_self _ _)
    have ht := ih fun w hw => h w (List.mem_cons_of_mem _ hw)
    cases v <;> simp_all [finSum, contrib, FpVal.isFinite]

theorem runningTotal_foldl (e : ℚ → ℚ) (m : ℚ) (l : List FpVal) :
    ∀ a : ℚ, l.foldl (fun acc v => acc + contrib e m v) a = a + finSum e m l := by
  induction l with
  | nil => intro a; simp [finSum]
  | cons v t ih => intro a; simp [finSum, ih]; ring

theorem runningTotal_eq_finSum (e : ℚ → ℚ) (m : ℚ) (l : List FpVal) :
    runningTotal e m l = finSum e m l := by
  simpa [runningTotal] using runningTotal_foldl e m l 0

/-! ## Lemmas about the CDF list -/

theorem cdfAux_length (e : ℚ → ℚ) (m : ℚ) (l : List FpVal) :
    ∀ acc, (cdfAux e m acc l).length = l.length := by
  induction l with
  | nil => intro acc; rfl
  | cons v t ih => intro acc; simp [cdfAux, ih]

theorem cdfAux_getD (e : ℚ → ℚ) (m : ℚ) (l : List FpVal) :
    ∀ (acc : ℚ) (j : ℕ), j < l.length →
      (cdfAux e m acc l).getD j 0 = acc + finSum e m (l.take (j + 1)) := by
  induction l with
  | nil => intro acc j h; simp at h
  | cons v t ih =>
    intro acc j h
    cases j with
    | zero => simp [cdfAux, finSum]
    | succ j =>
      have hj : j < t.length := by simpa using h
      simp only [cdfAux, List.getD_cons_succ, List.take_succ_cons, finSum]
      rw [ih (acc + contrib e m v) j hj]
      ring

theorem cdfList_length (e : ℚ → ℚ) (lowest : ℚ) (row : List FpVal) :
    (cdfList e lowest row).length = row.length := by
  simp [cdfList, cdfAux_length]

theorem cdfList_getD (e : ℚ → ℚ) (lowest : ℚ) (row : List FpVal) (j : ℕ)
    (h : j < row.length) :
    (cdfList e lowest row).getD j 0 =
      finSum e (maxFinite lowest row) (row.take (j + 1)) := by
  simpa [cdfList] using cdfAux_getD e (maxFinite lowest row) row 0 j h

/-- The index order `i ≤ j` view of a nondecreasing list. -/
def sortedLe (l : List ℚ) : Prop :=
  ∀ i j, i ≤ j → j < l.length → l.getD i 0 ≤ l.getD j 0

theorem cdfList_sorted {e : ℚ → ℚ} (he : ∀ x, 0 ≤ e x) (lowest : ℚ)
    (row : List FpVal) : sortedLe (cdfList e lowest row) := by
  intro i j hij hj
  rw [cdfList_length] at hj
  have hi : i < row.length := lt_of_le_of_lt hij hj
  rw [cdfList_getD e lowest row i hi, cdfList_getD e lowest row j hj]
  exact finSum_take_mono he _ row (by omega)

theorem cdfList_last (e : ℚ → ℚ) (lowest : ℚ) (row : List FpVal)
    (h : row ≠ []) :
    (cdfList e lowest row).getD (row.length - 1) 0 =
      runningTotal e (maxFinite lowest row) row := by
  have hlen : 0 < row.length := List.length_pos.mpr h
  rw [cdfList_getD e lowest row _ (by omega), runningTotal_eq_finSum]
  congr 1
  have : row.length - 1 + 1 = row.length := by omega
  rw [this, List.take_length]

/-! ## The `std::upper_bound` binary search -/

theorem ubAux_spec (l : List ℚ) (v : ℚ) (hs : sortedLe l) :
    ∀ (fuel first len : ℕ), len ≤ fuel → first + len ≤ l.length →
      (∀ i, i < first → l.getD i 0 ≤ v) →
      (∀ i, first + len ≤ i → i < l.length → v < l.getD i 0) →
      first ≤ ubAux l v fuel first len ∧ ubAux l v fuel first len ≤ first + len ∧
        (∀ i, i < ubAux l v fuel first len → l.getD i 0 ≤ v) ∧
        (∀ i, ubAux l v fuel first len ≤ i → i < l.length → v < l.getD i 0) := by
  intro fuel
  induction fuel with
  | zero =>
    intro first len hfuel _ hlow hhigh
    have hlen : len = 0 := by omega
    subst hlen
    exact ⟨le_refl _, by simp [ubAux], fun i hi => hlow i (by simpa [ubAux] using hi),
      fun i hi hil => hhigh i (by simpa [ubAux] using hi) hil⟩
  | succ fuel ih =>
    intro first len hfuel hinb hlow hhigh
    by_cases hz : len = 0
    · subst hz
      refine ⟨le_refl _, by simp [ubAux], fun i hi => hlow i ?_, fun i hi hil => hhigh i ?_ hil⟩
      · simpa [ubAux] using hi
      · simpa [ubAux] using hi
    · have hstep : ubAux l v (fuel + 1) first len =
          if v < l.getD (first + len / 2) 0 then ubAux l v fuel first (len / 2)
          else ubAux l v fuel (first + len / 2 + 1) (len - len / 2 - 1) := by
        simp [ubAux, hz]
      by_cases hv : v < l.getD (first + len / 2) 0
      · rw [hstep, if_pos hv]
        have hmid : first + len / 2 < l.length := by omega
        have hhigh' : ∀ i, first + len / 2 ≤ i → i < l.length → v < l.getD i 0 := by
          intro i hi hil
          exact lt_of_lt_of_le hv (hs (first + len / 2) i hi hil)
        have := ih first (len / 2) (by omega) (by omega) hlow hhigh'
        exact ⟨this.1, by omega, this.2.2.1, this.2.2.2⟩
      · rw [hstep, if_neg hv]
        have hmid : first + len / 2 < l.length := by omega
        have hle : l.getD (first + len / 2) 0 ≤ v := le_of_not_lt hv
        have hlow' : ∀ i, i < first + len / 2 + 1 → l.getD i 0 ≤ v := by
          intro i hi
          by_cases hif : i < first
          · exact hlow i hif
          · exact le_trans (hs i (first + len / 2) (by omega) hmid) hle
        have hhigh' : ∀ i, first + len / 2 + 1 + (len - len / 2 - 1) ≤ i →
            i < l.length → v < l.getD i 0 := by
          intro i hi hil
          exact hhigh i (by omega) hil
        have := ih (first + len / 2 + 1) (len - len / 2 - 1) (by omega) (by omega)
          hlow' hhigh'
        exact ⟨by omega, by omega, this.2.2.1, this.2.2.2⟩

/-- Characterization of `std::upper_bound` on a nondecreasing list: the result
is at most the length, every entry strictly before it is `≤ v`, and every
entry from it on is `> v`.  Hence it is the least index whose entry strictly
exceeds `v` (the length when there is none). -/
theorem upperBound_spec (l : List ℚ) (v : ℚ) (hs : sortedLe l) :
    upperBound l v ≤ l.length ∧
      (∀ i, i < upperBound l v → l.getD i 0 ≤ v) ∧
      (∀ i, upperBound l v ≤ i → i < l.length → v < l.getD i 0) := by
  have := ubAux_spec l v hs l.length 0 l.length (le_refl _) (by omega)
    (fun i hi => absurd hi (by omega)) (fun i hi hil => absurd hil (by omega))
  exact ⟨by simpa [upperBound] using this.2.1,
    by simpa [upperBound] using this.2.2.1,
    by simpa [upperBound] using this.2.2.2⟩

/-- If some entry strictly exceeds `v` (in particular the last one), the
search stays strictly inside the list. -/
theorem upperBound_lt_length {l : List ℚ} {v : ℚ} (hs : sortedLe l)
    {k : ℕ} (hk : k < l.length) (hv : v < l.getD k 0) :
    upperBound l v < l.length := by
  rcases upperBound_spec l v hs with ⟨hle, hlow, _⟩
  by_contra h
  have : upperBound l v = l.length := by omega
  exact absurd (hlow k (by omega)) (not_le.mpr hv)

/-- On an all-`≤ v` list the search returns the length (the end iterator). -/
theorem upperBound_eq_length {l : List ℚ} {v : ℚ} (hs : sortedLe l)
    (h : ∀ i, i < l.length → l.getD i 0 ≤ v) :
    upperBound l v = l.length := by
  rcases upperBound_spec l v hs with ⟨hle, _, hhigh⟩
  by_contra hne
  have hlt : upperBound l v < l.length := by omega
  exact absurd (h _ hlt) (not_le.mpr (hhigh _ (le_refl _) hlt))

/-! ## Bounds on the uniform draw -/

theorem randDouble_nonneg (stream : ℕ → ℕ) (p : ℕ) : 0 ≤ randDouble stream p := by
  unfold randDouble
  positivity

theorem randDouble_lt_one (stream : ℕ → ℕ) (p : ℕ) : randDouble stream p < 1 := by
  unfold randDouble
  rw [div_lt_one (by positivity)]
  have h : (stream p % 2 ^ 32 % 2 ^ 20) * 2 ^ 32 + stream (p + 1) % 2 ^ 32 < 2 ^ 52 := by
    have h1 : stream p % 2 ^ 32 % 2 ^ 20 < 2 ^ 20 := Nat.mod_lt _ (by norm_num)
    have h2 : stream (p + 1) % 2 ^ 32 < 2 ^ 32 := Nat.mod_lt _ (by norm_num)
    have h3 : (stream p % 2 ^ 32 % 2 ^ 20) * 2 ^ 32 ≤ (2 ^ 20 - 1) * 2 ^ 32 :=
      Nat.mul_le_mul_right _ (by omega)
    omega
  exact_mod_cast h

/-! ## Lemmas about the row sampler -/

theorem sampleRow_length (e : ℚ → ℚ) (lowest : ℚ) (stream : ℕ → ℕ) (p : ℕ)
    (row : List FpVal) (K : ℕ) : (sampleRow e lowest stream p row K).length = K := by
  simp [sampleRow]

theorem sampleRow_getD (e : ℚ → ℚ) (lowest : ℚ) (stream : ℕ → ℕ) (p : ℕ)
    (row : List FpVal) (K j : ℕ) (hj : j < K) :
    (sampleRow e lowest stream p row K).getD j 0 =
      upperBound (cdfList e lowest row)
        (randDouble stream (p + 2 * j) * runningTotal e (maxFinite lowest row) row) := by
  simp [sampleRow, List.getD_eq_getElem?_getD, List.getElem?_map, List.getElem?_range, hj]

theorem totalPos {e : ℚ → ℚ} (he : ∀ x, 0 < e x) (lowest : ℚ) {row : List FpVal}
    (hfin : hasFinite row = true) :
    0 < runningTotal e (maxFinite lowest row) row := by
  rw [runningTotal_eq_finSum]
  exact finSum_pos he _ hfin

theorem row_ne_nil_of_hasFinite {row : List FpVal} (hfin : hasFinite row = true) :
    row ≠ [] := by
  intro h; subst h; simp [hasFinite] at hfin

/-- The search value `RandDouble() * running_total` lies in `[0, running_total)`
whenever the running total is positive. -/
theorem toFind_bounds {e : ℚ → ℚ} (he : ∀ x, 0 < e x) (lowest : ℚ)
    {row : List FpVal} (hfin : hasFinite row = true) (stream : ℕ → ℕ) (w : ℕ) :
    0 ≤ randDouble stream w * runningTotal e (maxFinite lowest row) row ∧
      randDouble stream w * runningTotal e (maxFinite lowest row) row <
        runningTotal e (maxFinite lowest row) row := by
  have htot := totalPos he lowest hfin
  constructor
  · exact mul_nonneg (randDouble_nonneg stream w) (le_of_lt htot)
  · calc randDouble stream w * runningTotal e (maxFinite lowest row) row
        < 1 * runningTotal e (maxFinite lowest row) row :=
          mul_lt_mul_of_pos_right (randDouble_lt_one stream w) htot
      _ = runningTotal e (maxFinite lowest row) row := one_mul _

/-- Core range fact: on a row with a finite logit every `upper_bound` result
for a search value of the form `RandDouble() * running_total` is `< C`. -/
theorem upperBound_toFind_lt {e : ℚ → ℚ} (he : ∀ x, 0 < e x) (lowest : ℚ)
    {row : List FpVal} (hfin : hasFinite row = true) (stream : ℕ → ℕ) (w : ℕ) :
    upperBound (cdfList e lowest row)
        (randDouble stream w * runningTotal e (maxFinite lowest row) row) <
      row.length := by
  have hs : sortedLe (cdfList e lowest row) :=
    cdfList_sorted (fun x => le_of_lt (he x)) lowest row
  have hne : row ≠ [] := row_ne_nil_of_hasFinite hfin
  have hlen : 0 < row.length := List.length_pos.mpr hne
  have hlast := cdfList_last e lowest row hne
  have hlt := (toFind_bounds he lowest hfin stream w).2
  have hk : row.length - 1 < (cdfList e lowest row).length := by
    rw [cdfList_length]; omega
  have := upperBound_lt_length hs hk (by rw [hlast]; exact hlt)
  rwa [cdfList_length] at this

/-! ## Shard-order invariance machinery -/

theorem disjointShards_symm : Symmetric disjointShards := by
  intro a b h
  unfold disjointShards at *
  omega

theorem writeShard_comm (e : ℚ → ℚ) (lowest : ℚ) (stream : ℕ → ℕ)
    (logits : List (List FpVal)) (K : ℕ) {a b : ℕ × ℕ}
    (hd : disjointShards a b) (out : ℕ → Option (List ℕ)) :
    writeShard e lowest stream logits K (writeShard e lowest stream logits K out a) b =
      writeShard e lowest stream logits K (writeShard e lowest stream logits K out b) a := by
  funext r
  by_cases ha : a.1 ≤ r ∧ r < a.2
  · by_cases hb : b.1 ≤ r ∧ r < b.2
    · exfalso; unfold disjointShards at hd; omega
    · simp [writeShard, ha, hb]
  · by_cases hb : b.1 ≤ r ∧ r < b.2 <;> simp [writeShard, ha, hb]

theorem foldl_writeShard_perm (e : ℚ → ℚ) (lowest : ℚ) (stream : ℕ → ℕ)
    (logits : List (List FpVal)) (K : ℕ) {P P' : List (ℕ × ℕ)}
    (hperm : P.Perm P') :
    P.Pairwise disjointShards →
      ∀ out, P.foldl (writeShard e lowest stream logits K) out =
        P'.foldl (writeShard e lowest stream logits K) out := by
  induction hperm with
  | nil => intro _ _; rfl
  | cons x h ih =>
    intro hp out
    simp only [List.foldl_cons]
    exact ih hp.of_cons _
  | swap x y l =>
    intro hp out
    simp only [List.foldl_cons]
    have hxy : disjointShards y x :=
      (List.pairwise_cons.mp hp).1 x (List.mem_cons_self _ _)
    rw [writeShard_comm e lowest stream logits K hxy out]
  | trans h12 h23 ih12 ih23 =>
    intro hp out
    rw [ih12 hp out, ih23 ((h12.pairwise_iff @disjointShards_symm).mp hp) out]

/-! ## Claim C1 -/

/-- C1 counterexample: the range invariant does not hold for arbitrary logit
values.  On the row `[-inf, -inf]` (no finite logit) the kernel writes the
index `2 = num_classes`, which is not in `[0, 2)`.  This holds for any RNG
stream; it is shown here at the all-zero stream. -/
theorem C1_counterexample :
    sampleRow (fun _ => 1) (-65504) (fun _ => 0) 0 [FpVal.ninf, FpVal.ninf] 1 = [2] ∧
    ¬ ∀ r ∈ sampleRow (fun _ => 1) (-65504) (fun _ => 0) 0 [FpVal.ninf, FpVal.ninf] 1,
        r < [FpVal.ninf, FpVal.ninf].length := by
  have h1 : sampleRow (fun _ => 1) (-65504) (fun _ => 0) 0 [FpVal.ninf, FpVal.ninf] 1
      = [2] := by
    norm_num [sampleRow, cdfList, cdfAux, contrib, maxFinite, stepMax, runningTotal,
      randDouble, upperBound, ubAux, List.range_succ]
  refine ⟨h1, ?_⟩
  rw [h1]
  decide

/-- C1 (amended): for every row that contains at least one finite logit, every
index written by the row sampler is in `[0, C)` (`C = row.length`), for every
RNG stream, every sample count, every stream position, and every positive
exponential function — in particular regardless of the values drawn.  (Rows
with no finite logit instead produce the out-of-range value `C`; see C6.) -/
theorem C1_range (e : ℚ → ℚ) (lowest : ℚ) (stream : ℕ → ℕ) (p K : ℕ)
    (row : List FpVal) (he : ∀ x, 0 < e x) (hfin : hasFinite row = true) :
    ∀ r ∈ sampleRow e lowest stream p row K, r < row.length := by
  intro r hr
  simp only [sampleRow, List.mem_map, List.mem_range] at hr
  rcases hr with ⟨j, _, hrj⟩
  rw [← hrj]
  exact upperBound_toFind_lt he lowest hfin stream (p + 2 * j)

/-- Witness for C1: a concrete instantiation of the amended range theorem. -/
theorem C1_range_witness :
    (∀ _x : ℚ, 0 < (1 : ℚ)) ∧ hasFinite [FpVal.fin 0, FpVal.ninf] = true ∧
    ∀ r ∈ sampleRow (fun _ => 1) (-65504) (fun _ => 0) 0 [FpVal.fin 0, FpVal.ninf] 3,
        r < [FpVal.fin 0, FpVal.ninf].length :=
  ⟨fun _ => one_pos, by decide,
    C1_range (fun _ => 1) (-65504) (fun _ => 0) 0 3 [FpVal.fin 0, FpVal.ninf]
      (fun _ => one_pos) (by decide)⟩

/-! ## Claim C2 -/

/-- C2 counterexample: with the key/counter fixed (one fixed stream), the
logits fixed to two identical rows of `[0, 0]` and `num_samples = 1`, running
the batch as one shard `[0, 2)` and as two shards `[0, 1), [1, 2)` produces
different values at row 1.  As one shard, row 1's draw reads stream words 2
and 3 (sequential consumption after row 0); as its own shard it reads words 4
and 5 (the skip formula `1 * (1 + 3) / 4 = 1` block), so the draws differ and
so do the samples. -/
theorem C2_counterexample :
    runPartition (fun _ => 1) (-65504) (fun i => if i = 4 then 2 ^ 19 else 0)
        [[FpVal.fin 0, FpVal.fin 0], [FpVal.fin 0, FpVal.fin 0]] 1 [(0, 2)] 1 ≠
      runPartition (fun _ => 1) (-65504) (fun i => if i = 4 then 2 ^ 19 else 0)
        [[FpVal.fin 0, FpVal.fin 0], [FpVal.fin 0, FpVal.fin 0]] 1 [(0, 1), (1, 2)] 1 := by
  norm_num [runPartition, writeShard, emptyOut, sampleRow, cdfList, cdfAux, contrib,
    maxFinite, stepMax, runningTotal, randDouble, upperBound, ubAux, List.range_succ,
    rowStartWord, shardSkipBlocks]

/-- C2 (amended): for a fixed seed and logits and a fixed partition of the
batch into pairwise disjoint shards, the output is independent of the order in
which the shards are processed (each shard's stream position and row range
depend only on the shard itself, and distinct shards write disjoint row
ranges).  Changing the partition itself — one shard versus several — does not
in general preserve the output (see the counterexample). -/
theorem C2_order_invariance (e : ℚ → ℚ) (lowest : ℚ) (stream : ℕ → ℕ)
    (logits : List (List FpVal)) (K : ℕ) (P P' : List (ℕ × ℕ))
    (hperm : P.Perm P') (hdisj : P.Pairwise disjointShards) :
    runPartition e lowest stream logits K P = runPartition e lowest stream logits K P' :=
  foldl_writeShard_perm e lowest stream logits K hperm hdisj emptyOut

/-- Witness for C2: processing the two shards of a concrete partition in either
order yields the same output. -/
theorem C2_order_invariance_witness :
    [((0 : ℕ), (1 : ℕ)), (1, 2)].Perm [(1, 2), (0, 1)] ∧
    [((0 : ℕ), (1 : ℕ)), (1, 2)].Pairwise disjointShards ∧
    runPartition (fun _ => 1) (-65504) (fun _ => 0)
        [[FpVal.fin 0], [FpVal.fin 0]] 1 [(0, 1), (1, 2)] =
      runPartition (fun _ => 1) (-65504) (fun _ => 0)
        [[FpVal.fin 0], [FpVal.fin 0]] 1 [(1, 2), (0, 1)] :=
  ⟨List.Perm.swap (1, 2) (0, 1) [], by decide,
    C2_order_invariance (fun _ => 1) (-65504) (fun _ => 0)
      [[FpVal.fin 0], [FpVal.fin 0]] 1 [(0, 1), (1, 2)] [(1, 2), (0, 1)]
      (List.Perm.swap (1, 2) (0, 1) []) (by decide)⟩

/-! ## Claim C3 -/

/-- C3: the non-overlap invariant fails — the code has a bug relative to its
own comment ("+3 is so rounding doesn't lead to us using the same state in
different batches").  At `num_samples = 3`, with rows 0 and 1 in separate
shards, shard `[1, 2)` starts at block `1 * (3 + 3) / 4 = 1`, but shard
`[0, 1)` consumes `ceil(2*3/4) = 2` blocks (3 doubles = 6 words), so the
starting offset 1 is less than 0 + 2 and the streams overlap: word 4 (block 1)
is read by both shards. -/
theorem C3_shard_overlap :
    shardSkipBlocks 1 3 < shardSkipBlocks 0 3 + shardBlocksUsed 3 1 ∧
    rowStartWord 1 1 3 < rowStartWord 0 0 3 + shardWordsUsed 3 1 := by
  decide

/-! ## Claim C4 -/

/-- C4: for a row with at least one finite logit (whose finite entries are at
least `lowest`, as all genuine element-type values are), with
`m = maxFinite lowest row`:
`m` is the maximum over the row's finite logits; the CDF entry at `j` equals
the sum of `e (logit_i - m)` over the finite entries with `i ≤ j` (so the CDF
is nondecreasing and its last entry is the running total); and every sample
`j < K` is obtained from the draw `u = RandDouble() * running_total` (which
lies in `[0, running_total)`, taken at words `p + 2j, p + 2j + 1` of the
row's stream) as the least index whose CDF entry strictly exceeds `u`: the
sample is `< C`, its CDF entry is `> u`, and every CDF entry at a smaller
index is `≤ u` (in particular index 0 results whenever `u < cdf[0]`). -/
theorem C4_cdf_inverse_sampling (e : ℚ → ℚ) (lowest : ℚ) (stream : ℕ → ℕ)
    (p K : ℕ) (row : List FpVal)
    (he : ∀ x, 0 < e x) (hfin : hasFinite row = true)
    (hge : allFiniteGe lowest row = true) :
    (FpVal.fin (maxFinite lowest row) ∈ row ∧
      ∀ q, FpVal.fin q ∈ row → q ≤ maxFinite lowest row) ∧
    (∀ j, j < row.length → (cdfList e lowest row).getD j 0 =
      finSum e (maxFinite lowest row) (row.take (j + 1))) ∧
    sortedLe (cdfList e lowest row) ∧
    (cdfList e lowest row).getD (row.length - 1) 0 =
      runningTotal e (maxFinite lowest row) row ∧
    ∀ j, j < K →
      0 ≤ randDouble stream (p + 2 * j) * runningTotal e (maxFinite lowest row) row ∧
      randDouble stream (p + 2 * j) * runningTotal e (maxFinite lowest row) row <
        runningTotal e (maxFinite lowest row) row ∧
      (sampleRow e lowest stream p row K).getD j 0 < row.length ∧
      randDouble stream (p + 2 * j) * runningTotal e (maxFinite lowest row) row <
        (cdfList e lowest row).getD ((sampleRow e lowest stream p row K).getD j 0) 0 ∧
      ∀ i, i < (sampleRow e lowest stream p row K).getD j 0 →
        (cdfList e lowest row).getD i 0 ≤
          randDouble stream (p + 2 * j) * runningTotal e (maxFinite lowest row) row := by
  have hs : sortedLe (cdfList e lowest row) :=
    cdfList_sorted (fun x => le_of_lt (he x)) lowest row
  have hne : row ≠ [] := row_ne_nil_of_hasFinite hfin
  refine ⟨maxFinite_is_max hfin hge, fun j hj => cdfList_getD e lowest row j hj, hs,
    cdfList_last e lowest row hne, fun j hj => ?_⟩
  have hbounds := toFind_bounds he lowest hfin stream (p + 2 * j)
  have hlt := upperBound_toFind_lt he lowest hfin stream (p + 2 * j)
  rw [sampleRow_getD e lowest stream p row K j hj]
  rcases upperBound_spec (cdfList e lowest row)
      (randDouble stream (p + 2 * j) * runningTotal e (maxFinite lowest row) row) hs
    with ⟨_, hlow, hhigh⟩
  refine ⟨hbounds.1, hbounds.2, hlt, ?_, fun i hi => hlow i hi⟩
  exact hhigh _ (le_refl _) (by rw [cdfList_length]; exact hlt)

/-- Witness for C4: the theorem instantiated on the row `[0, -inf]` with the
all-zero stream and the constant-one exponential. -/
theorem C4_witness :
    (∀ _x : ℚ, 0 < (1 : ℚ)) ∧
    hasFinite [FpVal.fin 0, FpVal.ninf] = true ∧
    allFiniteGe (-65504) [FpVal.fin 0, FpVal.ninf] = true ∧
    ((FpVal.fin (maxFinite (-65504) [FpVal.fin 0, FpVal.ninf]) ∈ [FpVal.fin 0, FpVal.ninf] ∧
      ∀ q, FpVal.fin q ∈ [FpVal.fin 0, FpVal.ninf] →
        q ≤ maxFinite (-65504) [FpVal.fin 0, FpVal.ninf]) ∧
    (∀ j, j < [FpVal.fin 0, FpVal.ninf].length →
      (cdfList (fun _ => 1) (-65504) [FpVal.fin 0, FpVal.ninf]).getD j 0 =
        finSum (fun _ => 1) (maxFinite (-65504) [FpVal.fin 0, FpVal.ninf])
          ([FpVal.fin 0, FpVal.ninf].take (j + 1))) ∧
    sortedLe (cdfList (fun _ => 1) (-65504) [FpVal.fin 0, FpVal.ninf]) ∧
    (cdfList (fun _ => 1) (-65504) [FpVal.fin 0, FpVal.ninf]).getD
        ([FpVal.fin 0, FpVal.ninf].length - 1) 0 =
      runningTotal (fun _ => 1) (maxFinite (-65504) [FpVal.fin 0, FpVal.ninf])
        [FpVal.fin 0, FpVal.ninf] ∧
    ∀ j, j < 2 →
      0 ≤ randDouble (fun _ => 0) (0 + 2 * j) *
        runningTotal (fun _ => 1) (maxFinite (-65504) [FpVal.fin 0, FpVal.ninf])
          [FpVal.fin 0, FpVal.ninf] ∧
      randDouble (fun _ => 0) (0 + 2 * j) *
        runningTotal (fun _ => 1) (maxFinite (-65504) [FpVal.fin 0, FpVal.ninf])
          [FpVal.fin 0, FpVal.ninf] <
        runningTotal (fun _ => 1) (maxFinite (-65504) [FpVal.fin 0, FpVal.ninf])
          [FpVal.fin 0, FpVal.ninf] ∧
      (sampleRow (fun _ => 1) (-65504) (fun _ => 0) 0 [FpVal.fin 0, FpVal.ninf] 2).getD j 0 <
        [FpVal.fin 0, FpVal.ninf].length ∧
      randDouble (fun _ => 0) (0 + 2 * j) *
        runningTotal (fun _ => 1) (maxFinite (-65504) [FpVal.fin 0, FpVal.ninf])
          [FpVal.fin 0, FpVal.ninf] <
        (cdfList (fun _ => 1) (-65504) [FpVal.fin 0, FpVal.ninf]).getD
          ((sampleRow (fun _ => 1) (-65504) (fun _ => 0) 0
            [FpVal.fin 0, FpVal.ninf] 2).getD j 0) 0 ∧
      ∀ i, i < (sampleRow (fun _ => 1) (-65504) (fun _ => 0) 0
          [FpVal.fin 0, FpVal.ninf] 2).getD j 0 →
        (cdfList (fun _ => 1) (-65504) [FpVal.fin 0, FpVal.ninf]).getD i 0 ≤
          randDouble (fun _ => 0) (0 + 2 * j) *
            runningTotal (fun _ => 1) (maxFinite (-65504) [FpVal.fin 0, FpVal.ninf])
              [FpVal.fin 0, FpVal.ninf]) :=
  ⟨fun _ => one_pos, by decide, by decide,
    C4_cdf_inverse_sampling (fun _ => 1) (-65504) (fun _ => 0) 0 2
      [FpVal.fin 0, FpVal.ninf] (fun _ => one_pos) (by decide) (by decide)⟩

/-! ## Claim C5 -/

/-- C5 counterexample: with a single class `C = 1` the claim "every sample is
index 0, for any logits values" fails: a single NaN logit produces the sample
1 (= `num_classes`), not 0, since the running total is then 0. -/
theorem C5_counterexample :
    sampleRow (fun _ => 1) (-65504) (fun _ => 0) 0 [FpVal.nan] 1 = [1] ∧
    sampleRow (fun _ => 1) (-65504) (fun _ => 0) 0 [FpVal.nan] 1 ≠ List.replicate 1 0 := by
  have h1 : sampleRow (fun _ => 1) (-65504) (fun _ => 0) 0 [FpVal.nan] 1 = [1] := by
    norm_num [sampleRow, cdfList, cdfAux, contrib, maxFinite, stepMax, runningTotal,
      randDouble, upperBound, ubAux, List.range_succ]
  exact ⟨h1, by rw [h1]; decide⟩

/-- C5 (amended): with a single class whose logit is finite (and at least
`lowest`, as every genuine element-type value is), every one of the `K`
samples is index 0, for any stream, position and positive exponential. -/
theorem C5_single_class (e : ℚ → ℚ) (lowest q : ℚ) (stream : ℕ → ℕ)
    (p K : ℕ) (he : 0 < e 0) (hq : lowest ≤ q) :
    sampleRow e lowest stream p [FpVal.fin q] K = List.replicate K 0 := by
  have hm : maxFinite lowest [FpVal.fin q] = q := by
    simp [maxFinite, stepMax, max_eq_right hq]
  have hub : ∀ w, upperBound [e 0] (randDouble stream w * e 0) = 0 := by
    intro w
    have hv : randDouble stream w * e 0 < e 0 := by
      calc randDouble stream w * e 0
          < 1 * e 0 := mul_lt_mul_of_pos_right (randDouble_lt_one stream w) he
        _ = e 0 := one_mul _
    simp [upperBound, ubAux, hv]
  refine List.eq_replicate_iff.mpr ⟨by simp [sampleRow], ?_⟩
  intro b hb
  simp only [sampleRow, cdfList, cdfAux, contrib, runningTotal, hm, sub_self,
    List.foldl_cons, List.foldl_nil, zero_add, List.mem_map, List.mem_range] at hb
  rcases hb with ⟨j, _, hbj⟩
  rw [← hbj]
  exact hub (p + 2 * j)

/-- Witness for C5: two samples from the single finite-logit class `[5]`. -/
theorem C5_witness :
    (0 : ℚ) < 1 ∧ (-65504 : ℚ) ≤ 5 ∧
    sampleRow (fun _ => 1) (-65504) (fun _ => 7) 3 [FpVal.fin 5] 2 =
      List.replicate 2 0 :=
  ⟨one_pos, by norm_num,
    C5_single_class (fun _ => 1) (-65504) 5 (fun _ => 7) 3 2 one_pos (by norm_num)⟩

/-! ## Claim C6 -/

/-- C6: on a row in which every logit is non-finite, the sampler (a total
function — no crash) has running total 0, every CDF entry 0, every draw
`RandDouble() * running_total = 0`, and writes `C = num_classes` — an
out-of-range index — to every one of the row's `K` output cells. -/
theorem C6_all_nonfinite_row (e : ℚ → ℚ) (lowest : ℚ) (stream : ℕ → ℕ) (p K : ℕ)
    (row : List FpVal) (h : row.all (fun v => !v.isFinite) = true) :
    runningTotal e (maxFinite lowest row) row = 0 ∧
    (∀ j, j < row.length → (cdfList e lowest row).getD j 0 = 0) ∧
    (∀ j, j < K →
      randDouble stream (p + 2 * j) * runningTotal e (maxFinite lowest row) row = 0) ∧
    ∀ j, j < K → (sampleRow e lowest stream p row K).getD j 0 = row.length := by
  have hall : ∀ v ∈ row, v.isFinite = false := by
    intro v hv
    simpa using List.all_eq_true.mp h v hv
  have htot : runningTotal e (maxFinite lowest row) row = 0 := by
    rw [runningTotal_eq_finSum]
    exact finSum_all_nonfinite _ hall
  have hcdf : ∀ j, j < row.length → (cdfList e lowest row).getD j 0 = 0 := by
    intro j hj
    rw [cdfList_getD e lowest row j hj]
    exact finSum_all_nonfinite _ (fun v hv => hall v (List.take_subset _ _ hv))
  have hsorted : sortedLe (cdfList e lowest row) := by
    intro i j hij hj
    rw [cdfList_length] at hj
    rw [hcdf i (by omega), hcdf j hj]
  refine ⟨htot, hcdf, fun j _ => by rw [htot, mul_zero], fun j hj => ?_⟩
  rw [sampleRow_getD e lowest stream p row K j hj, htot, mul_zero]
  have hle : ∀ i, i < (cdfList e lowest row).length →
      (cdfList e lowest row).getD i 0 ≤ 0 := by
    intro i hi
    rw [cdfList_length] at hi
    rw [hcdf i hi]
  rw [upperBound_eq_length hsorted hle, cdfList_length]

/-- Witness for C6: a concrete all-non-finite row `[NaN, +inf, -inf]`. -/
theorem C6_witness :
    [FpVal.nan, FpVal.pinf, FpVal.ninf].all (fun v => !v.isFinite) = true ∧
    (runningTotal (fun x => x + 1)
        (maxFinite (-3) [FpVal.nan, FpVal.pinf, FpVal.ninf])
        [FpVal.nan, FpVal.pinf, FpVal.ninf] = 0 ∧
      (∀ j, j < [FpVal.nan, FpVal.pinf, FpVal.ninf].length →
        (cdfList (fun x => x + 1) (-3) [FpVal.nan, FpVal.pinf, FpVal.ninf]).getD j 0 = 0) ∧
      (∀ j, j < 2 →
        randDouble (fun _ => 7) (5 + 2 * j) *
          runningTotal (fun x => x + 1)
            (maxFinite (-3) [FpVal.nan, FpVal.pinf, FpVal.ninf])
            [FpVal.nan, FpVal.pinf, FpVal.ninf] = 0) ∧
      ∀ j, j < 2 →
        (sampleRow (fun x => x + 1) (-3) (fun _ => 7) 5
          [FpVal.nan, FpVal.pinf, FpVal.ninf] 2).getD j 0 =
          [FpVal.nan, FpVal.pinf, FpVal.ninf].length) :=
  ⟨by decide,
    C6_all_nonfinite_row (fun x => x + 1) (-3) (fun _ => 7) 5 2
      [FpVal.nan, FpVal.pinf, FpVal.ninf] (by decide)⟩

/-! ## Claim C7 -/

/-- C7 counterexample: the claimed list of validation failures is not
exhaustive.  For logits of shape `[2^31 + 5, 3]` with a scalar, non-negative
`num_samples = 7` and a positive class count, none of the listed conditions
holds, yet `DoCompute` reports an error (the first dimension does not fit in
a 32-bit int). -/
theorem C7_counterexample :
    isErr (doCompute [2 ^ 31 + 5, 3] [] 7 0).1 = true ∧
    [2 ^ 31 + 5, 3].length = 2 ∧ ([] : List ℕ).length = 0 ∧
    ¬ (7 : ℤ) < 0 ∧ [2 ^ 31 + 5, 3].getD 1 0 ≠ 0 := by
  refine ⟨by decide, by decide, by decide, by decide, by decide⟩

/-- The post-validation tail never reports an error. -/
theorem doComputeOk_isErr (B K g : ℕ) : isErr (doComputeOk B K g).1 = false := by
  unfold doComputeOk isErr
  split_ifs <;> rfl

/-- The error outcomes of `DoCompute` are exactly the failures of its five
validation checks. -/
theorem doCompute_err_iff (ls ns : List ℕ) (K : ℤ) (g : ℕ) :
    isErr (doCompute ls ns K g).1 = true ↔
      ls.length ≠ 2 ∨ ns.length ≠ 0 ∨ K < 0 ∨
        ¬ ls.all (· ≤ intMax) = true ∨ ls.getD 1 0 = 0 := by
  unfold doCompute
  split_ifs with h1 h2 h3 h4 h5
  · exact iff_of_true rfl (Or.inl h1)
  · exact iff_of_true rfl (Or.inr (Or.inl h2))
  · exact iff_of_true rfl (Or.inr (Or.inr (Or.inl h3)))
  · exact iff_of_true rfl (Or.inr (Or.inr (Or.inr (Or.inr h5))))
  · rw [doComputeOk_isErr]
    constructor
    · intro hfalse
      exact absurd hfalse Bool.false_ne_true
    · rintro (h | h | h | h | h)
      · exact absurd h h1
      · exact absurd h h2
      · exact absurd h h3
      · exact absurd h4 h
      · exact absurd h h5
  · exact iff_of_true rfl (Or.inr (Or.inr (Or.inr (Or.inl h4))))

/-- On the error path `DoCompute` leaves the generator untouched. -/
theorem doCompute_err_state (ls ns : List ℕ) (K : ℤ) (g : ℕ)
    (h : isErr (doCompute ls ns K g).1 = true) : (doCompute ls ns K g).2 = g := by
  unfold doCompute at *
  split_ifs at * <;> first
    | rfl
    | (rw [doComputeOk_isErr] at h; exact absurd h (by simp))

/-- C7 (amended): the op reports an invalid-argument error — leaving the
generator untouched and producing no output — exactly when validation fails:
logits not rank-2, `num_samples` not a scalar, `num_samples` negative, a
logits dimension exceeding the 32-bit int range, class count 0, or (stateless
variant) the seed input not a length-2 vector.  On the error path the
generator position is returned unchanged (nothing was reserved) and the
result carries no output. -/
theorem C7_validation (ls ns : List ℕ) (K : ℤ) (g : ℕ) (ss : List ℕ)
    (seed : ℤ × ℤ) (gk : ℤ × ℤ → ℕ) :
    (isErr (doCompute ls ns K g).1 = true ↔
      ls.length ≠ 2 ∨ ns.length ≠ 0 ∨ K < 0 ∨
        ¬ ls.all (· ≤ intMax) = true ∨ ls.getD 1 0 = 0) ∧
    (isErr (doCompute ls ns K g).1 = true → (doCompute ls ns K g).2 = g) ∧
    (isErr (statelessCompute gk ls ns K ss seed g).1 = true ↔
      ¬ (ss.length = 1 ∧ ss.getD 0 0 = 2) ∨ ls.length ≠ 2 ∨ ns.length ≠ 0 ∨
        K < 0 ∨ ¬ ls.all (· ≤ intMax) = true ∨ ls.getD 1 0 = 0) ∧
    (statelessCompute gk ls ns K ss seed g).2 = g := by
  refine ⟨doCompute_err_iff ls ns K g, doCompute_err_state ls ns K g, ?_, ?_⟩
  · by_cases hss : ss.length = 1 ∧ ss.getD 0 0 = 2
    · rw [statelessCompute, if_neg (by simpa using hss)]
      rw [doCompute_err_iff ls ns K (gk seed)]
      constructor
      · exact fun h => Or.inr h
      · rintro (h | h)
        · exact absurd hss h
        · exact h
    · rw [statelessCompute, if_pos hss]
      exact iff_of_true rfl (Or.inl hss)
  · unfold statelessCompute
    split_ifs <;> rfl

/-! ## Claim C8 -/

/-- C8: when validation passes but the batch size is 0 or the sample count is
0, the op returns successfully with output shape `[B, K]`, without calling
`ReserveRandomOutputs` (no RNG consumption: the generator position is
unchanged and nothing was reserved) and without invoking the row-sampling
functor (zero rows processed). -/
theorem C8_empty_output (B C : ℕ) (K : ℤ) (g : ℕ)
    (hB : B ≤ intMax) (hC : C ≤ intMax) (hCpos : 0 < C) (hK : 0 ≤ K)
    (hzero : B = 0 ∨ K = 0) :
    doCompute [B, C] [] K g = (.ok ⟨[B, K.toNat], none, 0⟩, g) := by
  have hprod : ¬ 0 < [B, C].getD 0 0 * K.toNat := by
    rcases hzero with h | h
    · simp [h]
    · simp [h]
  unfold doCompute
  rw [if_neg (by simp), if_neg (by simp), if_neg (not_lt.mpr hK),
    if_neg (by simp [hB, hC]), if_neg (by simpa using hCpos.ne')]
  unfold doComputeOk
  rw [if_neg hprod]
  rfl

/-- Witness for C8: an empty batch (`B = 0`) with `K = 5`. -/
theorem C8_witness :
    (0 : ℕ) ≤ intMax ∧ (1 : ℕ) ≤ intMax ∧ (0 : ℕ) < 1 ∧ (0 : ℤ) ≤ 5 ∧
    ((0 : ℕ) = 0 ∨ (5 : ℤ) = 0) ∧
    doCompute [0, 1] [] 5 3 = (.ok ⟨[0, (5 : ℤ).toNat], none, 0⟩, 3) :=
  ⟨by decide, by decide, by decide, by decide, Or.inl rfl,
    C8_empty_output 0 1 5 3 (by decide) (by decide) (by decide) (by decide)
      (Or.inl rfl)⟩

/-! ## Claim C9 -/

/-- C9 counterexample: the stateless op is not a pure function of
(logits, sample count, seed) alone — with an identical seed, identical logits
and identical sample count, two calls that the runtime shards differently
(one shard versus two) produce different output at row 1.  Hence its output
is a function of the inputs and the shard partition, not of the inputs only. -/
theorem C9_counterexample :
    outAt ((statelessFull (fun _ => fun i => if i = 4 then 2 ^ 19 else 0)
        (fun _ => 1) (-65504)
        [[FpVal.fin 0, FpVal.fin 0], [FpVal.fin 0, FpVal.fin 0]]
        [] [2] 1 (11, 12) [(0, 2)] 0).1) 1 ≠
      outAt ((statelessFull (fun _ => fun i => if i = 4 then 2 ^ 19 else 0)
        (fun _ => 1) (-65504)
        [[FpVal.fin 0, FpVal.fin 0], [FpVal.fin 0, FpVal.fin 0]]
        [] [2] 1 (11, 12) [(0, 1), (1, 2)] 0).1) 1 := by
  norm_num [statelessFull, outAt, doCompute, doComputeOk, intMax, runPartition,
    writeShard, emptyOut, sampleRow, cdfList, cdfAux, contrib, maxFinite, stepMax,
    runningTotal, randDouble, upperBound, ubAux, List.range_succ, rowStartWord,
    shardSkipBlocks]

/-- C9 (amended): the stateless op mutates no state that outlives the call
(the ambient generator position is returned unchanged; the key/counter is
rebuilt from the seed on every call), and for a fixed shard partition it is a
pure function of its inputs: its result does not depend on the ambient
generator position, and an immediately repeated call with identical inputs
returns a bit-identical result.  (Bit-identity across different partitions
fails; see the counterexample and C2.) -/
theorem C9_stateless_pure (gks : ℤ × ℤ → ℕ → ℕ) (e : ℚ → ℚ) (lowest : ℚ)
    (logits : List (List FpVal)) (ns ss : List ℕ) (K : ℤ) (seed : ℤ × ℤ)
    (P : List (ℕ × ℕ)) (g g' : ℕ) :
    (statelessFull gks e lowest logits ns ss K seed P g).2 = g ∧
    (statelessFull gks e lowest logits ns ss K seed P g).1 =
      (statelessFull gks e lowest logits ns ss K seed P g').1 ∧
    (statelessFull gks e lowest logits ns ss K seed P
        ((statelessFull gks e lowest logits ns ss K seed P g).2)).1 =
      (statelessFull gks e lowest logits ns ss K seed P g).1 := by
  unfold statelessFull
  split_ifs with hss
  · rcases h : (doCompute [logits.length, (logits.getD 0 []).length] ns K 0).1 with k | r
    · simp only [h]
      exact ⟨trivial, trivial, trivial⟩
    · by_cases hr : r.rowsProcessed = 0
      · simp only [h, if_pos hr]
        exact ⟨trivial, trivial, trivial⟩
      · simp only [h, if_neg hr]
        exact ⟨trivial, trivial, trivial⟩
  · exact ⟨rfl, rfl, rfl⟩

/-! ## Claim C10 -/

/-- C10: for every rank-2 logits shape one of whose dimensions exceeds the
32-bit int range, the op fails with the "too large for int" invalid-argument
error before allocating the output or touching the generator (shown here with
a scalar, non-negative `num_samples`, so that the earlier checks pass and the
reported error is precisely `tooLarge`). -/
theorem C10_dim_too_large (ls ns : List ℕ) (K : ℤ) (g : ℕ)
    (h2 : ls.length = 2) (hns : ns.length = 0) (hK : 0 ≤ K)
    (hbig : ¬ ls.all (· ≤ intMax) = true) :
    (doCompute ls ns K g).1 = .error .tooLarge ∧ (doCompute ls ns K g).2 = g := by
  unfold doCompute
  rw [if_neg (by omega), if_neg (by omega), if_neg (by omega), if_pos (by simpa using hbig)]
  exact ⟨rfl, rfl⟩

/-- Witness for C10: a `[2^31, 1]` logits shape. -/
theorem C10_witness :
    [2 ^ 31, 1].length = 2 ∧ ([] : List ℕ).length = 0 ∧ (0 : ℤ) ≤ 5 ∧
    ¬ [2 ^ 31, 1].all (· ≤ intMax) = true ∧
    ((doCompute [2 ^ 31, 1] [] 5 2).1 = .error .tooLarge ∧
      (doCompute [2 ^ 31, 1] [] 5 2).2 = 2) :=
  ⟨by decide, by decide, by decide, by decide,
    C10_dim_too_large [2 ^ 31, 1] [] 5 2 (by decide) (by decide) (by decide)
      (by decide)⟩

end MultinomialOp
